import Mathlib

/-!
Verification development for the `log_nonblock` I/O layer (`src/io.rs`).

The code under study is the retry-write loop `write_with_retry_internal!`,
the readiness waiter `wait_writable`, and `set_nonblocking`.  The OS stream
is modelled as an oracle: `writeResp i buf` is the outcome the stream gives
to the i-th `write` call when offered the byte slice `buf`, and `waitResp j`
tells whether the j-th `wait_writable` invocation succeeds.  The loop is
embedded as a fuel-indexed recursive function that additionally records the
chronological trace of write attempts and readiness waits, so that temporal
claims (who gets called when, with which bytes) become statements about the
trace.
-/

namespace LogNonblock

/-- Outcome of one `out.write(&bytes[written..])` call, as matched by the
Rust loop: `Ok(n)` (with `Ok(0)` treated specially), an error of kind
`WouldBlock`, or any other error. -/
inductive WriteResult where
  | ok (n : Nat)
  | errWouldBlock
  | errOther
deriving DecidableEq, Repr

/-- Number of bytes accepted by a write outcome. -/
def accepted : WriteResult → Nat
  | .ok n => n
  | .errWouldBlock => 0
  | .errOther => 0

/-- A would-block signal: zero bytes accepted with no error, or an error of
kind `WouldBlock`.  These are the two arms of the Rust match that invoke
`wait_writable` on Unix (and retry immediately on Windows). -/
def isWB : WriteResult → Bool
  | .ok 0 => true
  | .errWouldBlock => true
  | _ => false

/-- One observable event of the retry loop: a write attempt offering a byte
slice to the stream, or a `wait_writable` invocation with its result. -/
inductive Event where
  | write (offered : List Nat) (r : WriteResult)
  | wait (ok : Bool)
deriving DecidableEq, Repr

/-- How the loop ended: the `while` condition became false (`completed`),
a `break` was taken (`abandoned`), or the fuel ran out before either
(`outOfFuel`; the real loop has no fuel, so this marks a run observed only
up to a finite number of iterations). -/
inductive Outcome where
  | completed
  | abandoned
  | outOfFuel
deriving DecidableEq, Repr

/-- Result of running the loop: final `written`, the chronological event
trace, and how the loop ended.  Note the type carries no error value, just
as the Rust macro expands to a block of type `()`. -/
structure RunResult where
  written : Nat
  trace : List Event
  outcome : Outcome
deriving DecidableEq, Repr

/-- The `while written < bytes.len()` loop of `write_with_retry_internal!`
(src/io.rs lines 55-96), from an arbitrary loop state.  `unix` selects the
`#[cfg(unix)]` branches (readiness wait) versus the `#[cfg(windows)]`
branches (immediate retry).  `wIdx` and `waitIdx` count the write attempts
and readiness waits issued so far, indexing the oracles. -/
def writeLoop (unix : Bool) (bytes : List Nat)
    (writeResp : Nat → List Nat → WriteResult) (waitResp : Nat → Bool) :
    Nat → Nat → Nat → Nat → RunResult
  | 0, written, _, _ => ⟨written, [], .outOfFuel⟩
  | fuel + 1, written, wIdx, waitIdx =>
    if written < bytes.length then
      -- match out.write(&bytes[written..])
      match writeResp wIdx (bytes.drop written) with
      | .ok 0 =>
        -- Ok(0): nothing accepted
        if unix then
          if waitResp waitIdx then
            let r := writeLoop unix bytes writeResp waitResp fuel written (wIdx + 1) (waitIdx + 1)
            ⟨r.written, .write (bytes.drop written) (.ok 0) :: .wait true :: r.trace, r.outcome⟩
          else
            -- if wait_writable(raw_fd).is_err() { break }
            ⟨written, [.write (bytes.drop written) (.ok 0), .wait false], .abandoned⟩
        else
          -- on Windows, just retry
          let r := writeLoop unix bytes writeResp waitResp fuel written (wIdx + 1) waitIdx
          ⟨r.written, .write (bytes.drop written) (.ok 0) :: r.trace, r.outcome⟩
      | .ok (n + 1) =>
        -- Ok(n): written += n
        let r := writeLoop unix bytes writeResp waitResp fuel (written + (n + 1)) (wIdx + 1) waitIdx
        ⟨r.written, .write (bytes.drop written) (.ok (n + 1)) :: r.trace, r.outcome⟩
      | .errWouldBlock =>
        -- Err(e) if e.kind() == WouldBlock
        if unix then
          if waitResp waitIdx then
            let r := writeLoop unix bytes writeResp waitResp fuel written (wIdx + 1) (waitIdx + 1)
            ⟨r.written, .write (bytes.drop written) .errWouldBlock :: .wait true :: r.trace, r.outcome⟩
          else
            ⟨written, [.write (bytes.drop written) .errWouldBlock, .wait false], .abandoned⟩
        else
          let r := writeLoop unix bytes writeResp waitResp fuel written (wIdx + 1) waitIdx
          ⟨r.written, .write (bytes.drop written) .errWouldBlock :: r.trace, r.outcome⟩
      | .errOther =>
        -- Err(_): hard error, give up
        ⟨written, [.write (bytes.drop written) .errOther], .abandoned⟩
    else
      ⟨written, [], .completed⟩

/-- The whole `write_with_retry_internal!` body: `written` starts at 0 and
the loop runs over the full message bytes (src/io.rs lines 46-98). -/
def write_with_retry_internal (unix : Bool) (bytes : List Nat)
    (writeResp : Nat → List Nat → WriteResult) (waitResp : Nat → Bool)
    (fuel : Nat) : RunResult :=
  writeLoop unix bytes writeResp waitResp fuel 0 0 0

/-- Bytes actually handed over to (accepted by) the stream, in order: each
write attempt delivers the first `accepted` bytes of the slice it offered. -/
def delivered : List Event → List Nat
  | [] => []
  | .write offered r :: rest => offered.take (accepted r) ++ delivered rest
  | .wait _ :: rest => delivered rest

/-- Number of readiness-wait invocations in a trace. -/
def countWaits : List Event → Nat
  | [] => 0
  | .wait _ :: rest => countWaits rest + 1
  | .write _ _ :: rest => countWaits rest

/-- Number of write attempts whose outcome was a would-block signal. -/
def countWB : List Event → Nat
  | [] => 0
  | .write _ r :: rest => (if isWB r then 1 else 0) + countWB rest
  | .wait _ :: rest => countWB rest

/-- Number of write attempts in a trace. -/
def countWrites : List Event → Nat
  | [] => 0
  | .write _ _ :: rest => countWrites rest + 1
  | .wait _ :: rest => countWrites rest

/-- The subsequence of write-attempt events of a trace. -/
def writeEvents : List Event → List Event
  | [] => []
  | .write offered r :: rest => .write offered r :: writeEvents rest
  | .wait _ :: rest => writeEvents rest

/-- The offered slice of the first write attempt of a trace, if any. -/
def headWriteOffered : List Event → Option (List Nat)
  | [] => none
  | .write offered _ :: _ => some offered
  | .wait _ :: rest => headWriteOffered rest

/-- Whether the first write attempt of a trace (if any) offers the given
slice; vacuously true when no further write attempt occurs. -/
def retriesSame : Option (List Nat) → List Nat → Bool
  | none, _ => true
  | some next, offered => decide (next = offered)

/-- Every would-block write attempt in the trace is immediately followed by
a readiness-wait event, and when that wait succeeds, the next write attempt
(if any) offers the same byte slice again. -/
def wbHandled : List Event → Bool
  | [] => true
  | .write offered r :: rest =>
    if isWB r then
      match rest with
      | .wait b :: rest2 =>
        (!b || retriesSame (headWriteOffered rest2) offered) && wbHandled rest2
      | _ => false
    else wbHandled rest
  | .wait _ :: rest => wbHandled rest

/-- The trace contains a hard write error or a failed readiness wait — the
only two events that can justify abandoning a record. -/
def hasAbandonCause : List Event → Bool
  | [] => false
  | .write _ .errOther :: _ => true
  | .wait false :: _ => true
  | _ :: rest => hasAbandonCause rest

/-- An abandoned run is justified: it contains a hard error or a failed
wait.  (Trivially true for non-abandoned runs.) -/
def abandonJustified (res : RunResult) : Bool :=
  !(decide (res.outcome = Outcome.abandoned)) || hasAbandonCause res.trace

/-- The stream obeys the `std::io::Write` contract: a successful write never
reports more bytes accepted than were offered. -/
def ValidWriter (writeResp : Nat → List Nat → WriteResult) : Prop :=
  ∀ i buf n, writeResp i buf = WriteResult.ok n → n ≤ buf.length

/-- The write attempts of a trace, started at offset `w`, are consistent:
each attempt offers exactly `bytes[w..]` where `w` is the running sum of
bytes accepted so far. -/
def attemptsFrom (bytes : List Nat) : Nat → List Event → Bool
  | _, [] => true
  | w, .write offered r :: rest =>
    decide (offered = bytes.drop w) && attemptsFrom bytes (w + accepted r) rest
  | w, .wait _ :: rest => attemptsFrom bytes w rest

/-- One `poll(2)` invocation as issued by `wait_writable`: the descriptor
polled, the number of pollfd entries, the requested event mask, and the
timeout argument. -/
structure PollCall where
  fd : Int
  nfds : Nat
  events : Int
  timeout : Int
deriving DecidableEq, Repr

/-- `libc::POLLOUT` on Linux. -/
def POLLOUT : Int := 4

/-- `wait_writable` (src/io.rs lines 27-44): builds one pollfd for `fd`
with events `POLLOUT`, calls `poll(&mut pollfd, 1, -1)` once, and returns
`Err` exactly when that call returns `-1`.  The syscall outcome is an
oracle: `pollRet` is poll's return value and `revents` the event bits it
stores back (which the function never reads).  The model returns the list
of poll calls issued and `true` for `Ok(())`. -/
def wait_writable (fd : Int) (pollRet : Int) (revents : Int) : List PollCall × Bool :=
  let call : PollCall := { fd := fd, nfds := 1, events := POLLOUT, timeout := -1 }
  let _ := revents
  if pollRet = -1 then (call :: [], false) else (call :: [], true)

/-- One `fcntl(2)` invocation as issued by `set_nonblocking`. -/
inductive FcntlCall where
  | getfl (fd : Int)
  | setfl (fd : Int) (flags : Int)
deriving DecidableEq, Repr

/-- `libc::O_NONBLOCK` on Linux (octal 04000). -/
def O_NONBLOCK : Int := 2048

/-- `set_nonblocking` (src/io.rs lines 9-21): `fcntl(fd, F_GETFL)`; on `-1`
return `Err` at once; otherwise `fcntl(fd, F_SETFL, flags | O_NONBLOCK)`,
returning `Err` on `-1` and `Ok(())` otherwise.  The two syscall outcomes
are oracles `getflRet` and `setflRet`; the model returns the list of fcntl
calls issued and `true` for `Ok(())`. -/
def set_nonblocking (fd : Int) (getflRet : Int) (setflRet : Int) :
    List FcntlCall × Bool :=
  let flags := getflRet
  if flags = -1 then
    (FcntlCall.getfl fd :: [], false)
  else if setflRet = -1 then
    (FcntlCall.getfl fd :: FcntlCall.setfl fd (Int.lor flags O_NONBLOCK) :: [], false)
  else
    (FcntlCall.getfl fd :: FcntlCall.setfl fd (Int.lor flags O_NONBLOCK) :: [], true)

/-- Once `written` has reached the buffer length, the loop condition is
false and the loop exits normally at once, touching nothing. -/
theorem writeLoop_done (unix : Bool) (bytes : List Nat)
    (wr : Nat → List Nat → WriteResult) (wt : Nat → Bool)
    (fuel written wIdx waitIdx : Nat) (h : bytes.length ≤ written) :
    writeLoop unix bytes wr wt (fuel + 1) written wIdx waitIdx
      = ⟨written, [], Outcome.completed⟩ := by
  simp [writeLoop, Nat.not_lt.mpr h]

/-- Core invariant of the retry loop, for a stream obeying the `Write`
contract: `written` only grows, never exceeds the buffer length, the bytes
delivered to the stream are exactly the segment `bytes[written₀..written]`
of the buffer, and a normal exit means `written` reached the length. -/
theorem writeLoop_inv (unix : Bool) (bytes : List Nat)
    (wr : Nat → List Nat → WriteResult) (wt : Nat → Bool)
    (hv : ValidWriter wr) :
    ∀ fuel written wIdx waitIdx, written ≤ bytes.length →
      written ≤ (writeLoop unix bytes wr wt fuel written wIdx waitIdx).written ∧
      (writeLoop unix bytes wr wt fuel written wIdx waitIdx).written ≤ bytes.length ∧
      delivered (writeLoop unix bytes wr wt fuel written wIdx waitIdx).trace
        = (bytes.drop written).take
            ((writeLoop unix bytes wr wt fuel written wIdx waitIdx).written - written) ∧
      ((writeLoop unix bytes wr wt fuel written wIdx waitIdx).outcome = Outcome.completed →
        (writeLoop unix bytes wr wt fuel written wIdx waitIdx).written = bytes.length) := by
  intro fuel
  induction fuel with
  | zero =>
    intro written wIdx waitIdx hle
    simp [writeLoop, delivered]
    exact hle
  | succ fuel ih =>
    intro written wIdx waitIdx hle
    by_cases hlt : written < bytes.length
    · cases hresp : wr wIdx (bytes.drop written) with
      | ok n =>
        cases n with
        | zero =>
          cases unix with
          | true =>
            cases hwt : wt waitIdx with
            | true =>
              have h := ih written (wIdx + 1) (waitIdx + 1) hle
              simp [writeLoop, hlt, hresp, hwt, delivered, accepted] at h ⊢
              exact h
            | false =>
              simp [writeLoop, hlt, hresp, hwt, delivered, accepted]
              exact hle
          | false =>
            have h := ih written (wIdx + 1) waitIdx hle
            simp [writeLoop, hlt, hresp, delivered, accepted] at h ⊢
            exact h
        | succ n =>
          have hacc : n + 1 ≤ (bytes.drop written).length := hv _ _ _ hresp
          have hacc' : written + (n + 1) ≤ bytes.length := by
            simp [List.length_drop] at hacc
            omega
          have h := ih (written + (n + 1)) (wIdx + 1) waitIdx hacc'
          obtain ⟨h1, h2, h3, h4⟩ := h
          simp only [writeLoop, hlt, if_pos, hresp, delivered, accepted]
          refine ⟨by omega, h2, ?_, h4⟩
          rw [h3]
          have hdd : bytes.drop (written + (n + 1)) = (bytes.drop written).drop (n + 1) := by
            rw [List.drop_drop]
          rw [hdd]
          rw [← List.take_add]
          congr 1
          omega
      | errWouldBlock =>
        cases unix with
        | true =>
          cases hwt : wt waitIdx with
          | true =>
            have h := ih written (wIdx + 1) (waitIdx + 1) hle
            simp [writeLoop, hlt, hresp, hwt, delivered, accepted] at h ⊢
            exact h
          | false =>
            simp [writeLoop, hlt, hresp, hwt, delivered, accepted]
            exact hle
        | false =>
          have h := ih written (wIdx + 1) waitIdx hle
          simp [writeLoop, hlt, hresp, delivered, accepted] at h ⊢
          exact h
      | errOther =>
        simp [writeLoop, hlt, hresp, delivered, accepted]
        exact hle
    · have heq : written = bytes.length := by omega
      simp [writeLoop, hlt, delivered, heq]

/-- A loop trace is either empty (fuel exhausted or nothing left to write)
or starts with a write attempt offering exactly `bytes[written..]`. -/
theorem writeLoop_shape (unix : Bool) (bytes : List Nat)
    (wr : Nat → List Nat → WriteResult) (wt : Nat → Bool)
    (fuel written wIdx waitIdx : Nat) :
    (writeLoop unix bytes wr wt fuel written wIdx waitIdx).trace = [] ∨
    ∃ r rest, (writeLoop unix bytes wr wt fuel written wIdx waitIdx).trace
      = Event.write (bytes.drop written) r :: rest := by
  cases fuel with
  | zero => left; simp [writeLoop]
  | succ fuel =>
    by_cases hlt : written < bytes.length
    · cases hresp : wr wIdx (bytes.drop written) with
      | ok n =>
        cases n with
        | zero =>
          cases unix with
          | true =>
            cases hwt : wt waitIdx with
            | true =>
              right
              refine ⟨WriteResult.ok 0, Event.wait true ::
                (writeLoop true bytes wr wt fuel written (wIdx + 1) (waitIdx + 1)).trace, ?_⟩
              simp [writeLoop, hlt, hresp, hwt]
            | false =>
              right
              refine ⟨WriteResult.ok 0, [Event.wait false], ?_⟩
              simp [writeLoop, hlt, hresp, hwt]
          | false =>
            right
            refine ⟨WriteResult.ok 0,
              (writeLoop false bytes wr wt fuel written (wIdx + 1) waitIdx).trace, ?_⟩
            simp [writeLoop, hlt, hresp]
        | succ n =>
          right
          refine ⟨WriteResult.ok (n + 1),
            (writeLoop unix bytes wr wt fuel (written + (n + 1)) (wIdx + 1) waitIdx).trace, ?_⟩
          simp [writeLoop, hlt, hresp]
      | errWouldBlock =>
        cases unix with
        | true =>
          cases hwt : wt waitIdx with
          | true =>
            right
            refine ⟨WriteResult.errWouldBlock, Event.wait true ::
              (writeLoop true bytes wr wt fuel written (wIdx + 1) (waitIdx + 1)).trace, ?_⟩
            simp [writeLoop, hlt, hresp, hwt]
          | false =>
            right
            refine ⟨WriteResult.errWouldBlock, [Event.wait false], ?_⟩
            simp [writeLoop, hlt, hresp, hwt]
        | false =>
          right
          refine ⟨WriteResult.errWouldBlock,
            (writeLoop false bytes wr wt fuel written (wIdx + 1) waitIdx).trace, ?_⟩
          simp [writeLoop, hlt, hresp]
      | errOther =>
        right
        refine ⟨WriteResult.errOther, [], ?_⟩
        simp [writeLoop, hlt, hresp]
    · left; simp [writeLoop, hlt]

/-- Every trace of the loop has consistent write attempts: each attempt
offers exactly the suffix of the buffer past the bytes accepted so far. -/
theorem writeLoop_attempts (unix : Bool) (bytes : List Nat)
    (wr : Nat → List Nat → WriteResult) (wt : Nat → Bool) :
    ∀ fuel written wIdx waitIdx,
      attemptsFrom bytes written
        (writeLoop unix bytes wr wt fuel written wIdx waitIdx).trace = true := by
  intro fuel
  induction fuel with
  | zero => intro written wIdx waitIdx; simp [writeLoop, attemptsFrom]
  | succ fuel ih =>
    intro written wIdx waitIdx
    by_cases hlt : written < bytes.length
    · cases hresp : wr wIdx (bytes.drop written) with
      | ok n =>
        cases n with
        | zero =>
          cases unix with
          | true =>
            cases hwt : wt waitIdx with
            | true =>
              have h := ih written (wIdx + 1) (waitIdx + 1)
              simp [writeLoop, hlt, hresp, hwt, attemptsFrom, accepted, h]
            | false => simp [writeLoop, hlt, hresp, hwt, attemptsFrom, accepted]
          | false =>
            have h := ih written (wIdx + 1) waitIdx
            simp [writeLoop, hlt, hresp, attemptsFrom, accepted, h]
        | succ n =>
          have h := ih (written + (n + 1)) (wIdx + 1) waitIdx
          simp [writeLoop, hlt, hresp, attemptsFrom, accepted, h]
      | errWouldBlock =>
        cases unix with
        | true =>
          cases hwt : wt waitIdx with
          | true =>
            have h := ih written (wIdx + 1) (waitIdx + 1)
            simp [writeLoop, hlt, hresp, hwt, attemptsFrom, accepted, h]
          | false => simp [writeLoop, hlt, hresp, hwt, attemptsFrom, accepted]
        | false =>
          have h := ih written (wIdx + 1) waitIdx
          simp [writeLoop, hlt, hresp, attemptsFrom, accepted, h]
      | errOther => simp [writeLoop, hlt, hresp, attemptsFrom, accepted]
    · simp [writeLoop, hlt, attemptsFrom]

theorem wbHandled_cons_wb (off : List Nat) (r : WriteResult) (b : Bool)
    (t : List Event) (h : isWB r = true) :
    wbHandled (Event.write off r :: Event.wait b :: t)
      = ((!b || retriesSame (headWriteOffered t) off) && wbHandled t) := by
  unfold wbHandled
  rw [h]
  simp
  congr 1
  exact wbHandled.eq_def t

theorem wbHandled_cons_nowb (off : List Nat) (r : WriteResult)
    (t : List Event) (h : isWB r = false) :
    wbHandled (Event.write off r :: t) = wbHandled t := by
  unfold wbHandled
  rw [h]
  simp
  exact wbHandled.eq_def t

/-- On Unix, the loop never issues two write attempts around a would-block
signal without a readiness wait in between, and a successful wait is
followed by a retry of the very same remaining bytes. -/
theorem writeLoop_wbHandled (bytes : List Nat)
    (wr : Nat → List Nat → WriteResult) (wt : Nat → Bool) :
    ∀ fuel written wIdx waitIdx,
      wbHandled (writeLoop true bytes wr wt fuel written wIdx waitIdx).trace
        = true := by
  intro fuel
  induction fuel with
  | zero => intro written wIdx waitIdx; simp [writeLoop, wbHandled]
  | succ fuel ih =>
    intro written wIdx waitIdx
    by_cases hlt : written < bytes.length
    · cases hresp : wr wIdx (bytes.drop written) with
      | ok n =>
        cases n with
        | zero =>
          cases hwt : wt waitIdx with
          | true =>
            have hih := ih written (wIdx + 1) (waitIdx + 1)
            have htr : (writeLoop true bytes wr wt (fuel + 1) written wIdx waitIdx).trace
                = Event.write (bytes.drop written) (WriteResult.ok 0) :: Event.wait true ::
                  (writeLoop true bytes wr wt fuel written (wIdx + 1) (waitIdx + 1)).trace := by
              simp [writeLoop, hlt, hresp, hwt]
            rw [htr, wbHandled_cons_wb _ (WriteResult.ok 0) _ _ (by decide)]
            rcases writeLoop_shape true bytes wr wt fuel written (wIdx + 1) (waitIdx + 1) with
              hsh | ⟨r2, rest2, hsh⟩
            · rw [hsh] at hih ⊢
              simp [retriesSame, headWriteOffered, hih]
            · rw [hsh] at hih ⊢
              simp [retriesSame, headWriteOffered, hih]
          | false =>
            have htr : (writeLoop true bytes wr wt (fuel + 1) written wIdx waitIdx).trace
                = [Event.write (bytes.drop written) (WriteResult.ok 0), Event.wait false] := by
              simp [writeLoop, hlt, hresp, hwt]
            rw [htr, wbHandled_cons_wb _ (WriteResult.ok 0) _ _ (by decide)]
            simp [retriesSame, headWriteOffered, wbHandled]
        | succ n =>
          have hih := ih (written + (n + 1)) (wIdx + 1) waitIdx
          have htr : (writeLoop true bytes wr wt (fuel + 1) written wIdx waitIdx).trace
              = Event.write (bytes.drop written) (WriteResult.ok (n + 1)) ::
                (writeLoop true bytes wr wt fuel (written + (n + 1)) (wIdx + 1) waitIdx).trace := by
            simp [writeLoop, hlt, hresp]
          rw [htr, wbHandled_cons_nowb _ (WriteResult.ok (n + 1)) _ (by simp [isWB])]
          exact hih
      | errWouldBlock =>
        cases hwt : wt waitIdx with
        | true =>
          have hih := ih written (wIdx + 1) (waitIdx + 1)
          have htr : (writeLoop true bytes wr wt (fuel + 1) written wIdx waitIdx).trace
              = Event.write (bytes.drop written) WriteResult.errWouldBlock :: Event.wait true ::
                (writeLoop true bytes wr wt fuel written (wIdx + 1) (waitIdx + 1)).trace := by
            simp [writeLoop, hlt, hresp, hwt]
          rw [htr, wbHandled_cons_wb _ WriteResult.errWouldBlock _ _ (by decide)]
          rcases writeLoop_shape true bytes wr wt fuel written (wIdx + 1) (waitIdx + 1) with
            hsh | ⟨r2, rest2, hsh⟩
          · rw [hsh] at hih ⊢
            simp [retriesSame, headWriteOffered, hih]
          · rw [hsh] at hih ⊢
            simp [retriesSame, headWriteOffered, hih]
        | false =>
          have htr : (writeLoop true bytes wr wt (fuel + 1) written wIdx waitIdx).trace
              = [Event.write (bytes.drop written) WriteResult.errWouldBlock, Event.wait false] := by
            simp [writeLoop, hlt, hresp, hwt]
          rw [htr, wbHandled_cons_wb _ WriteResult.errWouldBlock _ _ (by decide)]
          simp [retriesSame, headWriteOffered, wbHandled]
      | errOther =>
        have htr : (writeLoop true bytes wr wt (fuel + 1) written wIdx waitIdx).trace
            = [Event.write (bytes.drop written) WriteResult.errOther] := by
          simp [writeLoop, hlt, hresp]
        rw [htr, wbHandled_cons_nowb _ WriteResult.errOther _ (by decide)]
        simp [wbHandled]
    · simp [writeLoop, hlt, wbHandled]

theorem hasAbandonCause_cons (e : Event) (t : List Event)
    (hne : hasAbandonCause [e] = false) :
    hasAbandonCause (e :: t) = hasAbandonCause t := by
  cases e with
  | write off r => cases r <;> simp_all [hasAbandonCause]
  | wait b => cases b <;> simp_all [hasAbandonCause]

theorem abandonJustified_cons (e : Event) (t : List Event) (o : Outcome)
    (w w2 : Nat) (hne : hasAbandonCause [e] = false)
    (h : abandonJustified ⟨w, t, o⟩ = true) :
    abandonJustified ⟨w2, e :: t, o⟩ = true := by
  unfold abandonJustified at h ⊢
  simpa [hasAbandonCause_cons e t hne] using h

/-- Whenever a run abandons its record, the trace contains a hard write
error or a failed readiness wait: nothing else takes the `break` paths. -/
theorem writeLoop_abandonJustified (unix : Bool) (bytes : List Nat)
    (wr : Nat → List Nat → WriteResult) (wt : Nat → Bool) :
    ∀ fuel written wIdx waitIdx,
      abandonJustified (writeLoop unix bytes wr wt fuel written wIdx waitIdx)
        = true := by
  intro fuel
  induction fuel with
  | zero => intro w i j; simp [writeLoop, abandonJustified]
  | succ fuel ih =>
    intro written wIdx waitIdx
    by_cases hlt : written < bytes.length
    · cases hresp : wr wIdx (bytes.drop written) with
      | ok n =>
        cases n with
        | zero =>
          cases unix with
          | true =>
            cases hwt : wt waitIdx with
            | true =>
              have hih := ih written (wIdx + 1) (waitIdx + 1)
              have hres : writeLoop true bytes wr wt (fuel + 1) written wIdx waitIdx
                  = ⟨(writeLoop true bytes wr wt fuel written (wIdx + 1) (waitIdx + 1)).written,
                     Event.write (bytes.drop written) (WriteResult.ok 0) :: Event.wait true ::
                       (writeLoop true bytes wr wt fuel written (wIdx + 1) (waitIdx + 1)).trace,
                     (writeLoop true bytes wr wt fuel written (wIdx + 1) (waitIdx + 1)).outcome⟩ := by
                simp [writeLoop, hlt, hresp, hwt]
              rw [hres]
              apply abandonJustified_cons _ _ _ 0 _ (by simp [hasAbandonCause])
              apply abandonJustified_cons _ _ _ 0 _ (by simp [hasAbandonCause])
              exact hih
            | false =>
              simp [writeLoop, hlt, hresp, hwt, abandonJustified, hasAbandonCause]
          | false =>
            have hih := ih written (wIdx + 1) waitIdx
            have hres : writeLoop false bytes wr wt (fuel + 1) written wIdx waitIdx
                = ⟨(writeLoop false bytes wr wt fuel written (wIdx + 1) waitIdx).written,
                   Event.write (bytes.drop written) (WriteResult.ok 0) ::
                     (writeLoop false bytes wr wt fuel written (wIdx + 1) waitIdx).trace,
                   (writeLoop false bytes wr wt fuel written (wIdx + 1) waitIdx).outcome⟩ := by
              simp [writeLoop, hlt, hresp]
            rw [hres]
            apply abandonJustified_cons _ _ _ 0 _ (by simp [hasAbandonCause])
            exact hih
        | succ n =>
          have hih := ih (written + (n + 1)) (wIdx + 1) waitIdx
          have hres : writeLoop unix bytes wr wt (fuel + 1) written wIdx waitIdx
              = ⟨(writeLoop unix bytes wr wt fuel (written + (n + 1)) (wIdx + 1) waitIdx).written,
                 Event.write (bytes.drop written) (WriteResult.ok (n + 1)) ::
                   (writeLoop unix bytes wr wt fuel (written + (n + 1)) (wIdx + 1) waitIdx).trace,
                 (writeLoop unix bytes wr wt fuel (written + (n + 1)) (wIdx + 1) waitIdx).outcome⟩ := by
            simp [writeLoop, hlt, hresp]
          rw [hres]
          apply abandonJustified_cons _ _ _ 0 _ (by simp [hasAbandonCause])
          exact hih
      | errWouldBlock =>
        cases unix with
        | true =>
          cases hwt : wt waitIdx with
          | true =>
            have hih := ih written (wIdx + 1) (waitIdx + 1)
            have hres : writeLoop true bytes wr wt (fuel + 1) written wIdx waitIdx
                = ⟨(writeLoop true bytes wr wt fuel written (wIdx + 1) (waitIdx + 1)).written,
                   Event.write (bytes.drop written) WriteResult.errWouldBlock :: Event.wait true ::
                     (writeLoop true bytes wr wt fuel written (wIdx + 1) (waitIdx + 1)).trace,
                   (writeLoop true bytes wr wt fuel written (wIdx + 1) (waitIdx + 1)).outcome⟩ := by
              simp [writeLoop, hlt, hresp, hwt]
            rw [hres]
            apply abandonJustified_cons _ _ _ 0 _ (by simp [hasAbandonCause])
            apply abandonJustified_cons _ _ _ 0 _ (by simp [hasAbandonCause])
            exact hih
          | false =>
            simp [writeLoop, hlt, hresp, hwt, abandonJustified, hasAbandonCause]
        | false =>
          have hih := ih written (wIdx + 1) waitIdx
          have hres : writeLoop false bytes wr wt (fuel + 1) written wIdx waitIdx
              = ⟨(writeLoop false bytes wr wt fuel written (wIdx + 1) waitIdx).written,
                 Event.write (bytes.drop written) WriteResult.errWouldBlock ::
                   (writeLoop false bytes wr wt fuel written (wIdx + 1) waitIdx).trace,
                 (writeLoop false bytes wr wt fuel written (wIdx + 1) waitIdx).outcome⟩ := by
            simp [writeLoop, hlt, hresp]
          rw [hres]
          apply abandonJustified_cons _ _ _ 0 _ (by simp [hasAbandonCause])
          exact hih
      | errOther =>
        simp [writeLoop, hlt, hresp, abandonJustified, hasAbandonCause]
    · simp [writeLoop, hlt, abandonJustified]

/-- With a stream that never reports a hard error and readiness waits that
all succeed, no `break` is reachable: the loop never abandons the record. -/
theorem writeLoop_no_abandon (unix : Bool) (bytes : List Nat)
    (wr : Nat → List Nat → WriteResult) (wt : Nat → Bool)
    (hh : ∀ i buf, wr i buf ≠ WriteResult.errOther)
    (hw : ∀ j, wt j = true) :
    ∀ fuel written wIdx waitIdx,
      (writeLoop unix bytes wr wt fuel written wIdx waitIdx).outcome
        ≠ Outcome.abandoned := by
  intro fuel
  induction fuel with
  | zero =>
    intro written wIdx waitIdx
    simp [writeLoop]
  | succ fuel ih =>
    intro written wIdx waitIdx
    by_cases hlt : written < bytes.length
    · cases hresp : wr wIdx (bytes.drop written) with
      | ok n =>
        cases n with
        | zero =>
          cases unix with
          | true =>
            simp [writeLoop, hlt, hresp, hw waitIdx]
            exact ih written (wIdx + 1) (waitIdx + 1)
          | false =>
            simp [writeLoop, hlt, hresp]
            exact ih written (wIdx + 1) waitIdx
        | succ n =>
          simp [writeLoop, hlt, hresp]
          exact ih (written + (n + 1)) (wIdx + 1) waitIdx
      | errWouldBlock =>
        cases unix with
        | true =>
          simp [writeLoop, hlt, hresp, hw waitIdx]
          exact ih written (wIdx + 1) (waitIdx + 1)
        | false =>
          simp [writeLoop, hlt, hresp]
          exact ih written (wIdx + 1) waitIdx
      | errOther => exact absurd hresp (hh _ _)
    · simp [writeLoop, hlt]

/-- A failed readiness wait ends the run at once: if the trace contains a
failed wait, the run abandoned its record with bytes still unwritten and the
failed wait is the very last event of the trace. -/
theorem writeLoop_waitFail (bytes : List Nat)
    (wr : Nat → List Nat → WriteResult) (wt : Nat → Bool) :
    ∀ fuel written wIdx waitIdx,
      Event.wait false ∈ (writeLoop true bytes wr wt fuel written wIdx waitIdx).trace →
      (writeLoop true bytes wr wt fuel written wIdx waitIdx).outcome
          = Outcome.abandoned ∧
      (writeLoop true bytes wr wt fuel written wIdx waitIdx).written
          < bytes.length ∧
      (writeLoop true bytes wr wt fuel written wIdx waitIdx).trace.getLast?
          = some (Event.wait false) := by
  intro fuel
  induction fuel with
  | zero => intro w i j hmem; simp [writeLoop] at hmem
  | succ fuel ih =>
    intro written wIdx waitIdx hmem
    by_cases hlt : written < bytes.length
    · cases hresp : wr wIdx (bytes.drop written) with
      | ok n =>
        cases n with
        | zero =>
          cases hwt : wt waitIdx with
          | true =>
            have hres : writeLoop true bytes wr wt (fuel + 1) written wIdx waitIdx
                = ⟨(writeLoop true bytes wr wt fuel written (wIdx + 1) (waitIdx + 1)).written,
                   Event.write (bytes.drop written) (WriteResult.ok 0) :: Event.wait true ::
                     (writeLoop true bytes wr wt fuel written (wIdx + 1) (waitIdx + 1)).trace,
                   (writeLoop true bytes wr wt fuel written (wIdx + 1) (waitIdx + 1)).outcome⟩ := by
              simp [writeLoop, hlt, hresp, hwt]
            rw [hres] at hmem ⊢
            simp only [List.mem_cons] at hmem
            rcases hmem with h | h | h
            · exact absurd h (by simp)
            · exact absurd h (by simp)
            · obtain ⟨h1, h2, h3⟩ := ih written (wIdx + 1) (waitIdx + 1) h
              refine ⟨h1, h2, ?_⟩
              have hne := List.ne_nil_of_mem h
              obtain ⟨c, t2, hct⟩ := List.exists_cons_of_ne_nil hne
              simp only [List.getLast?_cons_cons]
              rw [hct, List.getLast?_cons_cons, ← hct]
              exact h3
          | false =>
            have hres : writeLoop true bytes wr wt (fuel + 1) written wIdx waitIdx
                = ⟨written, [Event.write (bytes.drop written) (WriteResult.ok 0),
                    Event.wait false], Outcome.abandoned⟩ := by
              simp [writeLoop, hlt, hresp, hwt]
            rw [hres]
            refine ⟨rfl, hlt, ?_⟩
            simp [List.getLast?]
        | succ n =>
          have hres : writeLoop true bytes wr wt (fuel + 1) written wIdx waitIdx
              = ⟨(writeLoop true bytes wr wt fuel (written + (n + 1)) (wIdx + 1) waitIdx).written,
                 Event.write (bytes.drop written) (WriteResult.ok (n + 1)) ::
                   (writeLoop true bytes wr wt fuel (written + (n + 1)) (wIdx + 1) waitIdx).trace,
                 (writeLoop true bytes wr wt fuel (written + (n + 1)) (wIdx + 1) waitIdx).outcome⟩ := by
            simp [writeLoop, hlt, hresp]
          rw [hres] at hmem ⊢
          simp only [List.mem_cons] at hmem
          rcases hmem with h | h
          · exact absurd h (by simp)
          · obtain ⟨h1, h2, h3⟩ := ih (written + (n + 1)) (wIdx + 1) waitIdx h
            refine ⟨h1, h2, ?_⟩
            have hne := List.ne_nil_of_mem h
            obtain ⟨c, t2, hct⟩ := List.exists_cons_of_ne_nil hne
            rw [hct, List.getLast?_cons_cons, ← hct]
            exact h3
      | errWouldBlock =>
        cases hwt : wt waitIdx with
        | true =>
          have hres : writeLoop true bytes wr wt (fuel + 1) written wIdx waitIdx
              = ⟨(writeLoop true bytes wr wt fuel written (wIdx + 1) (waitIdx + 1)).written,
                 Event.write (bytes.drop written) WriteResult.errWouldBlock :: Event.wait true ::
                   (writeLoop true bytes wr wt fuel written (wIdx + 1) (waitIdx + 1)).trace,
                 (writeLoop true bytes wr wt fuel written (wIdx + 1) (waitIdx + 1)).outcome⟩ := by
            simp [writeLoop, hlt, hresp, hwt]
          rw [hres] at hmem ⊢
          simp only [List.mem_cons] at hmem
          rcases hmem with h | h | h
          · exact absurd h (by simp)
          · exact absurd h (by simp)
          · obtain ⟨h1, h2, h3⟩ := ih written (wIdx + 1) (waitIdx + 1) h
            refine ⟨h1, h2, ?_⟩
            have hne := List.ne_nil_of_mem h
            obtain ⟨c, t2, hct⟩ := List.exists_cons_of_ne_nil hne
            simp only [List.getLast?_cons_cons]
            rw [hct, List.getLast?_cons_cons, ← hct]
            exact h3
        | false =>
          have hres : writeLoop true bytes wr wt (fuel + 1) written wIdx waitIdx
              = ⟨written, [Event.write (bytes.drop written) WriteResult.errWouldBlock,
                  Event.wait false], Outcome.abandoned⟩ := by
            simp [writeLoop, hlt, hresp, hwt]
          rw [hres]
          refine ⟨rfl, hlt, ?_⟩
          simp [List.getLast?]
      | errOther =>
        have hres : writeLoop true bytes wr wt (fuel + 1) written wIdx waitIdx
            = ⟨written, [Event.write (bytes.drop written) WriteResult.errOther],
               Outcome.abandoned⟩ := by
          simp [writeLoop, hlt, hresp]
        rw [hres] at hmem
        simp at hmem
    · simp [writeLoop, hlt] at hmem

/-- On Unix, readiness waits and would-block write attempts come in pairs:
the number of `wait_writable` invocations in a trace equals the number of
write attempts that signalled would-block. -/
theorem writeLoop_waitCount (bytes : List Nat)
    (wr : Nat → List Nat → WriteResult) (wt : Nat → Bool) :
    ∀ fuel written wIdx waitIdx,
      countWaits (writeLoop true bytes wr wt fuel written wIdx waitIdx).trace
        = countWB (writeLoop true bytes wr wt fuel written wIdx waitIdx).trace := by
  intro fuel
  induction fuel with
  | zero => intro w i j; simp [writeLoop, countWaits, countWB]
  | succ fuel ih =>
    intro written wIdx waitIdx
    by_cases hlt : written < bytes.length
    · cases hresp : wr wIdx (bytes.drop written) with
      | ok n =>
        cases n with
        | zero =>
          cases hwt : wt waitIdx with
          | true =>
            have hih := ih written (wIdx + 1) (waitIdx + 1)
            simp [writeLoop, hlt, hresp, hwt, countWaits, countWB, isWB]
            omega
          | false =>
            simp [writeLoop, hlt, hresp, hwt, countWaits, countWB, isWB]
        | succ n =>
          have hih := ih (written + (n + 1)) (wIdx + 1) waitIdx
          simp [writeLoop, hlt, hresp, countWaits, countWB, isWB]
          omega
      | errWouldBlock =>
        cases hwt : wt waitIdx with
        | true =>
          have hih := ih written (wIdx + 1) (waitIdx + 1)
          simp [writeLoop, hlt, hresp, hwt, countWaits, countWB, isWB]
          omega
        | false =>
          simp [writeLoop, hlt, hresp, hwt, countWaits, countWB, isWB]
      | errOther =>
        simp [writeLoop, hlt, hresp, countWaits, countWB, isWB]
    · simp [writeLoop, hlt, countWaits, countWB]

/-- The bytes delivered by a trace are determined by its write events. -/
theorem delivered_writeEvents (t : List Event) :
    delivered (writeEvents t) = delivered t := by
  induction t with
  | nil => rfl
  | cons e t ih =>
    cases e with
    | write off r => simp [writeEvents, delivered, ih]
    | wait b => simp [writeEvents, delivered, ih]

/-- The Windows build (immediate retry, no readiness wait) and the Unix
build with always-succeeding readiness waits perform exactly the same
write attempts: same final `written`, same outcome, same write events, and
the Windows build issues no wait at all.  The Windows run never consults
the wait oracle, so it is stated for an arbitrary one. -/
theorem writeLoop_winEquiv (bytes : List Nat)
    (wr : Nat → List Nat → WriteResult) (wt : Nat → Bool) :
    ∀ fuel written wIdx waitIdxW waitIdxU,
      (writeLoop false bytes wr wt fuel written wIdx waitIdxW).written
        = (writeLoop true bytes wr (fun _ => true) fuel written wIdx waitIdxU).written ∧
      (writeLoop false bytes wr wt fuel written wIdx waitIdxW).outcome
        = (writeLoop true bytes wr (fun _ => true) fuel written wIdx waitIdxU).outcome ∧
      writeEvents (writeLoop false bytes wr wt fuel written wIdx waitIdxW).trace
        = writeEvents (writeLoop true bytes wr (fun _ => true) fuel written wIdx waitIdxU).trace ∧
      countWaits (writeLoop false bytes wr wt fuel written wIdx waitIdxW).trace = 0 := by
  intro fuel
  induction fuel with
  | zero => intro w i jW jU; simp [writeLoop, writeEvents, countWaits]
  | succ fuel ih =>
    intro written wIdx waitIdxW waitIdxU
    by_cases hlt : written < bytes.length
    · cases hresp : wr wIdx (bytes.drop written) with
      | ok n =>
        cases n with
        | zero =>
          have hih := ih written (wIdx + 1) waitIdxW (waitIdxU + 1)
          simp [writeLoop, hlt, hresp, writeEvents, countWaits]
          exact hih
        | succ n =>
          have hih := ih (written + (n + 1)) (wIdx + 1) waitIdxW waitIdxU
          simp [writeLoop, hlt, hresp, writeEvents, countWaits]
          exact hih
      | errWouldBlock =>
        have hih := ih written (wIdx + 1) waitIdxW (waitIdxU + 1)
        simp [writeLoop, hlt, hresp, writeEvents, countWaits]
        exact hih
      | errOther =>
        simp [writeLoop, hlt, hresp, writeEvents, countWaits]
    · simp [writeLoop, hlt, writeEvents, countWaits]

/-- Termination bound: if every write attempt yields a hard error, a
would-block answered by a failing wait, or at least one byte of progress,
the loop ends (one way or another) within `bytes.length - written` write
attempts, given that much fuel plus one final loop test. -/
theorem writeLoop_term (bytes : List Nat)
    (wr : Nat → List Nat → WriteResult) (wt : Nat → Bool)
    (hv : ValidWriter wr)
    (hwb : ∀ i buf, isWB (wr i buf) = true → ∀ j, wt j = false) :
    ∀ fuel written wIdx waitIdx, written ≤ bytes.length →
      bytes.length + 1 ≤ fuel + written →
      (writeLoop true bytes wr wt fuel written wIdx waitIdx).outcome
          ≠ Outcome.outOfFuel ∧
      countWrites (writeLoop true bytes wr wt fuel written wIdx waitIdx).trace
          ≤ bytes.length - written := by
  intro fuel
  induction fuel with
  | zero =>
    intro w i j h1 h2
    exfalso
    omega
  | succ fuel ih =>
    intro written wIdx waitIdx hle hfuel
    by_cases hlt : written < bytes.length
    · cases hresp : wr wIdx (bytes.drop written) with
      | ok n =>
        cases n with
        | zero =>
          have hwf : wt waitIdx = false := hwb wIdx (bytes.drop written) (by simp [hresp, isWB]) waitIdx
          refine ⟨by simp [writeLoop, hlt, hresp, hwf], ?_⟩
          simp [writeLoop, hlt, hresp, hwf, countWrites]
          omega
        | succ n =>
          have hacc : n + 1 ≤ (bytes.drop written).length := hv _ _ _ hresp
          rw [List.length_drop] at hacc
          have hih := ih (written + (n + 1)) (wIdx + 1) waitIdx (by omega) (by omega)
          refine ⟨?_, ?_⟩
          · simp [writeLoop, hlt, hresp]
            exact hih.1
          · have h2 := hih.2
            simp [writeLoop, hlt, hresp, countWrites]
            omega
      | errWouldBlock =>
        have hwf : wt waitIdx = false := hwb wIdx (bytes.drop written) (by simp [hresp, isWB]) waitIdx
        refine ⟨by simp [writeLoop, hlt, hresp, hwf], ?_⟩
        simp [writeLoop, hlt, hresp, hwf, countWrites]
        omega
      | errOther =>
        refine ⟨by simp [writeLoop, hlt, hresp], ?_⟩
        simp [writeLoop, hlt, hresp, countWrites]
        omega
    · refine ⟨by simp [writeLoop, hlt], ?_⟩
      simp [writeLoop, hlt, countWrites]

/-- A stream that accepts every byte offered on the first attempt. -/
def wrAcceptAll : Nat → List Nat → WriteResult := fun _ buf => WriteResult.ok buf.length

/-- A stream that accepts at most two bytes on the first attempt and then
reports a hard error. -/
def wrPartialThenFail : Nat → List Nat → WriteResult :=
  fun i buf => if i = 0 then WriteResult.ok (min 2 buf.length) else WriteResult.errOther

/-- A stream that always reports a hard error. -/
def wrHardFail : Nat → List Nat → WriteResult := fun _ _ => WriteResult.errOther

/-- A stream that always accepts zero bytes (permanent would-block). -/
def wrNeverAccepts : Nat → List Nat → WriteResult := fun _ _ => WriteResult.ok 0

/-- A stream that accepts exactly one byte per attempt. -/
def wrAcceptOne : Nat → List Nat → WriteResult :=
  fun _ buf => WriteResult.ok (min 1 buf.length)

/-- Readiness waits that always succeed. -/
def wtAlwaysOk : Nat → Bool := fun _ => true

/-- Readiness waits that always fail. -/
def wtAlwaysFails : Nat → Bool := fun _ => false

/-- Claim C1: against a stream that never reports a hard error (only
accepts, partially accepts, or would-blocks) and whose readiness waits all
succeed, the retry loop never abandons the record; when it exits normally,
`written` equals the buffer length and the delivered bytes are exactly the
whole buffer; and conversely, as soon as `written` reaches the buffer
length the loop exits normally at once. -/
theorem claim1_block_no_data_loss (unix : Bool) (bytes : List Nat)
    (wr : Nat → List Nat → WriteResult) (wt : Nat → Bool) (fuel : Nat)
    (hv : ValidWriter wr)
    (hh : ∀ i buf, wr i buf ≠ WriteResult.errOther)
    (hw : ∀ j, wt j = true) :
    (write_with_retry_internal unix bytes wr wt fuel).outcome
        ≠ Outcome.abandoned ∧
    ((write_with_retry_internal unix bytes wr wt fuel).outcome = Outcome.completed →
      (write_with_retry_internal unix bytes wr wt fuel).written = bytes.length ∧
      delivered (write_with_retry_internal unix bytes wr wt fuel).trace = bytes) ∧
    (∀ f wIdx waitIdx, writeLoop unix bytes wr wt (f + 1) bytes.length wIdx waitIdx
      = ⟨bytes.length, [], Outcome.completed⟩) := by
  simp only [write_with_retry_internal]
  obtain ⟨h1, h2, h3, h4⟩ := writeLoop_inv unix bytes wr wt hv fuel 0 0 0 (Nat.zero_le _)
  refine ⟨writeLoop_no_abandon unix bytes wr wt hh hw fuel 0 0 0, ?_, ?_⟩
  · intro hc
    have hw' := h4 hc
    refine ⟨hw', ?_⟩
    rw [h3, hw']
    simp
  · intro f wIdx waitIdx
    exact writeLoop_done unix bytes wr wt f bytes.length wIdx waitIdx le_rfl

theorem claim1_witness :
    (write_with_retry_internal true [5, 6, 7] wrAcceptAll wtAlwaysOk 2).outcome
        ≠ Outcome.abandoned ∧
    (write_with_retry_internal true [5, 6, 7] wrAcceptAll wtAlwaysOk 2).written = 3 ∧
    delivered (write_with_retry_internal true [5, 6, 7] wrAcceptAll wtAlwaysOk 2).trace
        = [5, 6, 7] := by
  have h := claim1_block_no_data_loss true [5, 6, 7] wrAcceptAll wtAlwaysOk 2
    (fun i buf n hn => by simp [wrAcceptAll] at hn; omega)
    (fun i buf => by simp [wrAcceptAll])
    (fun j => rfl)
  exact ⟨h.1, (h.2.1 (by decide)).1, (h.2.1 (by decide)).2⟩

/-- Claim C2: for every stream obeying the `Write` contract, the bytes
handed to the stream form a contiguous initial segment of the buffer in
input order — each attempt offers exactly `bytes[written..]` with `written`
the running sum of accepted counts, and the delivered bytes are exactly
`bytes.take written`, also when the record is abandoned mid-record. -/
theorem claim2_contiguous_writes (unix : Bool) (bytes : List Nat)
    (wr : Nat → List Nat → WriteResult) (wt : Nat → Bool) (fuel : Nat)
    (hv : ValidWriter wr) :
    attemptsFrom bytes 0 (write_with_retry_internal unix bytes wr wt fuel).trace
        = true ∧
    delivered (write_with_retry_internal unix bytes wr wt fuel).trace
      = bytes.take (write_with_retry_internal unix bytes wr wt fuel).written ∧
    (write_with_retry_internal unix bytes wr wt fuel).written ≤ bytes.length := by
  simp only [write_with_retry_internal]
  obtain ⟨h1, h2, h3, h4⟩ := writeLoop_inv unix bytes wr wt hv fuel 0 0 0 (Nat.zero_le _)
  refine ⟨writeLoop_attempts unix bytes wr wt fuel 0 0 0, ?_, h2⟩
  rw [h3]
  simp

theorem claim2_witness :
    attemptsFrom [1, 2, 3, 4] 0
      (write_with_retry_internal true [1, 2, 3, 4] wrPartialThenFail wtAlwaysOk 3).trace
        = true ∧
    delivered (write_with_retry_internal true [1, 2, 3, 4] wrPartialThenFail wtAlwaysOk 3).trace
      = [1, 2, 3, 4].take
          (write_with_retry_internal true [1, 2, 3, 4] wrPartialThenFail wtAlwaysOk 3).written ∧
    (write_with_retry_internal true [1, 2, 3, 4] wrPartialThenFail wtAlwaysOk 3).written
      ≤ [1, 2, 3, 4].length :=
  claim2_contiguous_writes true [1, 2, 3, 4] wrPartialThenFail wtAlwaysOk 3
    (by
      intro i buf n hn
      by_cases hi : i = 0 <;> simp [wrPartialThenFail, hi] at hn
      omega)

/-- Claim C3: on Unix, every would-block signal (zero-byte accept or
`WouldBlock` error) is immediately followed by a `wait_writable`
invocation, and when that wait succeeds the next write attempt offers the
same remaining bytes again; moreover any abandoned run contains a hard
error or a failed wait, so a would-block alone never abandons a record. -/
theorem claim3_would_block_waits_then_retries (bytes : List Nat)
    (wr : Nat → List Nat → WriteResult) (wt : Nat → Bool) (fuel : Nat) :
    wbHandled (write_with_retry_internal true bytes wr wt fuel).trace = true ∧
    abandonJustified (write_with_retry_internal true bytes wr wt fuel) = true := by
  simp only [write_with_retry_internal]
  exact ⟨writeLoop_wbHandled bytes wr wt fuel 0 0 0,
    writeLoop_abandonJustified true bytes wr wt fuel 0 0 0⟩

/-- Claim C4: a write error that is not `WouldBlock` makes the loop `break`
at once: the run ends with only that attempt in its tail, `written` is
unchanged (the remaining bytes are discarded), and the function still
returns an ordinary `RunResult` — its type carries no error to propagate. -/
theorem claim4_hard_error_abandons_silently (unix : Bool) (bytes : List Nat)
    (wr : Nat → List Nat → WriteResult) (wt : Nat → Bool)
    (fuel written wIdx waitIdx : Nat)
    (hlt : written < bytes.length)
    (hresp : wr wIdx (bytes.drop written) = WriteResult.errOther) :
    writeLoop unix bytes wr wt (fuel + 1) written wIdx waitIdx
      = ⟨written, [Event.write (bytes.drop written) WriteResult.errOther],
         Outcome.abandoned⟩ := by
  simp [writeLoop, hlt, hresp]

theorem claim4_witness :
    writeLoop true [9, 9] wrHardFail wtAlwaysOk 1 0 0 0
      = ⟨0, [Event.write [9, 9] WriteResult.errOther], Outcome.abandoned⟩ :=
  claim4_hard_error_abandons_silently true [9, 9] wrHardFail wtAlwaysOk 0 0 0 0
    (by decide) rfl

/-- Claim C5: if a readiness wait fails, the current record is abandoned
exactly as for a hard write error: the run's outcome is `abandoned`, bytes
remain unwritten (`written < bytes.length`), and the failed wait is the
last event — nothing further is attempted. -/
theorem claim5_wait_error_abandons (bytes : List Nat)
    (wr : Nat → List Nat → WriteResult) (wt : Nat → Bool)
    (fuel written wIdx waitIdx : Nat)
    (hmem : Event.wait false
      ∈ (writeLoop true bytes wr wt fuel written wIdx waitIdx).trace) :
    (writeLoop true bytes wr wt fuel written wIdx waitIdx).outcome
        = Outcome.abandoned ∧
    (writeLoop true bytes wr wt fuel written wIdx waitIdx).written
        < bytes.length ∧
    (writeLoop true bytes wr wt fuel written wIdx waitIdx).trace.getLast?
        = some (Event.wait false) :=
  writeLoop_waitFail bytes wr wt fuel written wIdx waitIdx hmem

theorem claim5_witness :
    (writeLoop true [1] wrNeverAccepts wtAlwaysFails 1 0 0 0).outcome
        = Outcome.abandoned ∧
    (writeLoop true [1] wrNeverAccepts wtAlwaysFails 1 0 0 0).written < [1].length ∧
    (writeLoop true [1] wrNeverAccepts wtAlwaysFails 1 0 0 0).trace.getLast?
        = some (Event.wait false) :=
  claim5_wait_error_abandons [1] wrNeverAccepts wtAlwaysFails 1 0 0 0 (by decide)

/-- Claim C6: on Unix, `wait_writable` is invoked exactly once per
would-block signal — the number of waits in any trace equals the number of
would-block write attempts; in particular a stream that accepts zero bytes
twice and then all three bytes causes exactly two waits, then completes
with all bytes delivered. -/
theorem claim6_one_wait_per_would_block (bytes : List Nat)
    (wr : Nat → List Nat → WriteResult) (wt : Nat → Bool) (fuel : Nat) :
    countWaits (write_with_retry_internal true bytes wr wt fuel).trace
      = countWB (write_with_retry_internal true bytes wr wt fuel).trace ∧
    (countWaits (write_with_retry_internal true [1, 2, 3]
        (fun i _ => if i < 2 then WriteResult.ok 0 else WriteResult.ok 3)
        (fun _ => true) 4).trace = 2 ∧
      (write_with_retry_internal true [1, 2, 3]
        (fun i _ => if i < 2 then WriteResult.ok 0 else WriteResult.ok 3)
        (fun _ => true) 4).outcome = Outcome.completed ∧
      delivered (write_with_retry_internal true [1, 2, 3]
        (fun i _ => if i < 2 then WriteResult.ok 0 else WriteResult.ok 3)
        (fun _ => true) 4).trace = [1, 2, 3]) := by
  refine ⟨?_, by decide, by decide, by decide⟩
  simp only [write_with_retry_internal]
  exact writeLoop_waitCount bytes wr wt fuel 0 0 0

/-- Claim C7: `wait_writable` issues exactly one poll call, for `POLLOUT`
on one descriptor with timeout `-1` (unbounded), returns an error exactly
when poll returns `-1`, and ignores the stored `revents` entirely — a zero
return or error flags in `revents` still yield `Ok`. -/
theorem claim7_single_unbounded_poll (fd pollRet revents : Int) :
    (wait_writable fd pollRet revents).1
      = [{ fd := fd, nfds := 1, events := POLLOUT, timeout := -1 }] ∧
    ((wait_writable fd pollRet revents).2 = false ↔ pollRet = -1) ∧
    (∀ rv2 : Int, wait_writable fd pollRet rv2 = wait_writable fd pollRet revents) := by
  unfold wait_writable
  by_cases h : pollRet = -1 <;> simp [h]

theorem claim7_witness :
    (wait_writable 3 1 7).1
      = [{ fd := 3, nfds := 1, events := POLLOUT, timeout := -1 }] ∧
    ((wait_writable 3 1 7).2 = false ↔ (1 : Int) = -1) :=
  ⟨(claim7_single_unbounded_poll 3 1 7).1,
   (claim7_single_unbounded_poll 3 1 7).2.1⟩

/-- Claim C8: the Windows build retries immediately on a would-block signal
(no wait event at all appears in its trace), and against the same stream it
performs exactly the same write attempts as the Unix build whose readiness
waits all succeed: same final `written`, same outcome, same write events,
same delivered bytes. -/
theorem claim8_windows_fallback_equivalent (bytes : List Nat)
    (wr : Nat → List Nat → WriteResult) (wt : Nat → Bool) (fuel : Nat) :
    (write_with_retry_internal false bytes wr wt fuel).written
      = (write_with_retry_internal true bytes wr (fun _ => true) fuel).written ∧
    (write_with_retry_internal false bytes wr wt fuel).outcome
      = (write_with_retry_internal true bytes wr (fun _ => true) fuel).outcome ∧
    writeEvents (write_with_retry_internal false bytes wr wt fuel).trace
      = writeEvents (write_with_retry_internal true bytes wr (fun _ => true) fuel).trace ∧
    delivered (write_with_retry_internal false bytes wr wt fuel).trace
      = delivered (write_with_retry_internal true bytes wr (fun _ => true) fuel).trace ∧
    countWaits (write_with_retry_internal false bytes wr wt fuel).trace = 0 := by
  simp only [write_with_retry_internal]
  obtain ⟨h1, h2, h3, h4⟩ := writeLoop_winEquiv bytes wr wt fuel 0 0 0 0
  refine ⟨h1, h2, h3, ?_, h4⟩
  rw [← delivered_writeEvents, h3, delivered_writeEvents]

/-- Claim C9: when every write attempt makes progress (at least one byte)
or ends the run (hard error, or would-block whose readiness wait fails),
the loop needs at most `bytes.length` write attempts: with fuel
`bytes.length + 1` it never runs out. -/
theorem claim9_terminates_within_len_attempts (bytes : List Nat)
    (wr : Nat → List Nat → WriteResult) (wt : Nat → Bool) (fuel : Nat)
    (hv : ValidWriter wr)
    (hwb : ∀ i buf, isWB (wr i buf) = true → ∀ j, wt j = false)
    (hf : bytes.length + 1 ≤ fuel) :
    (write_with_retry_internal true bytes wr wt fuel).outcome
        ≠ Outcome.outOfFuel ∧
    countWrites (write_with_retry_internal true bytes wr wt fuel).trace
        ≤ bytes.length := by
  simp only [write_with_retry_internal]
  have h := writeLoop_term bytes wr wt hv hwb fuel 0 0 0 (Nat.zero_le _) (by omega)
  simpa using h

theorem claim9_witness :
    (write_with_retry_internal true [7, 8] wrAcceptOne wtAlwaysFails 3).outcome
        ≠ Outcome.outOfFuel ∧
    countWrites (write_with_retry_internal true [7, 8] wrAcceptOne wtAlwaysFails 3).trace
        ≤ [7, 8].length :=
  claim9_terminates_within_len_attempts [7, 8] wrAcceptOne wtAlwaysFails 3
    (fun i buf n hn => by simp [wrAcceptOne] at hn; omega)
    (fun i buf h j => rfl)
    (by decide)

/-- Claim C10: `set_nonblocking` only ever sets the `O_NONBLOCK` bit: when
the initial `F_GETFL` fails it stops without touching the flags; otherwise
it writes back the flag word read, or-ed with `O_NONBLOCK`, which leaves
every bit other than bit 11 unchanged; and it fails exactly when one of
the two fcntl calls returns `-1`. -/
theorem claim10_set_nonblocking_frame (fd getflRet setflRet : Int) :
    (getflRet = -1 →
      set_nonblocking fd getflRet setflRet = ([FcntlCall.getfl fd], false)) ∧
    (getflRet ≠ -1 →
      (set_nonblocking fd getflRet setflRet).1
        = [FcntlCall.getfl fd, FcntlCall.setfl fd (Int.lor getflRet O_NONBLOCK)]) ∧
    ((set_nonblocking fd getflRet setflRet).2 = false ↔
      (getflRet = -1 ∨ setflRet = -1)) ∧
    (∀ k : Nat, k ≠ 11 →
      Int.testBit (Int.lor getflRet O_NONBLOCK) k = Int.testBit getflRet k) ∧
    Int.testBit (Int.lor getflRet O_NONBLOCK) 11 = true := by
  have hbit : ∀ k : Nat, Int.testBit O_NONBLOCK k = Nat.testBit 2048 k := fun k => rfl
  have h2048 : (2048 : Nat) = 2 ^ 11 := by norm_num
  refine ⟨?_, ?_, ?_, ?_, ?_⟩
  · intro h
    simp [set_nonblocking, h]
  · intro h
    by_cases hs : setflRet = -1 <;> simp [set_nonblocking, h, hs]
  · by_cases h : getflRet = -1 <;> by_cases hs : setflRet = -1 <;>
      simp [set_nonblocking, h, hs]
  · intro k hk
    rw [Int.testBit_lor, hbit, h2048, Nat.testBit_two_pow_of_ne (by omega)]
    simp
  · rw [Int.testBit_lor, hbit, h2048, Nat.testBit_two_pow_self]
    simp

theorem claim10_witness :
    (set_nonblocking 5 2 0).1
      = [FcntlCall.getfl 5, FcntlCall.setfl 5 (Int.lor 2 O_NONBLOCK)] ∧
    Int.testBit (Int.lor (2 : Int) O_NONBLOCK) 1 = Int.testBit (2 : Int) 1 ∧
    Int.testBit (Int.lor (2 : Int) O_NONBLOCK) 11 = true :=
  ⟨(claim10_set_nonblocking_frame 5 2 0).2.1 (by decide),
   (claim10_set_nonblocking_frame 5 2 0).2.2.2.1 1 (by decide),
   (claim10_set_nonblocking_frame 5 2 0).2.2.2.2⟩

end LogNonblock
